import Mathlib

/-!
Verification of the org parser core (`src/org/parser.ts`) of the braindump
repository, against its natural-language specification.

The parser source (`parser.ts`) is embedded faithfully below.  Its two
imports, the `Reader` class (`./reader`) and the regex utilities
(`./parser/utils`), are not part of the available sources; those are
modelled from the specification (sections 4.1, 4.2, 4.3.9 and 9), and each
such definition is marked `Modelled from the spec:` in its doc comment.

Strings are embedded as `List Char`; byte offsets are `Nat`.  JavaScript
exceptions and dynamic type errors are embedded as an explicit error type,
and the unbounded `while` loops of the source are given a fuel parameter
(`PErr.fuel` reports exhaustion; no claim depends on a particular fuel).
-/

/-- Characters treated as whitespace by JavaScript string `trim`, regex `\s`
and `\S` (restricted to the ASCII whitespace range, which is the only range
exercised by the parser's inputs). -/
def isJsWs (c : Char) : Bool :=
  c == ' ' || c == '\t' || c == '\n' || c == '\r' || c == Char.ofNat 11 || c == Char.ofNat 12

/-- JavaScript `line.trim().length === 0`: every character is whitespace. -/
def trimEmpty (l : List Char) : Bool := l.all isJsWs

/-- JavaScript `text.trim().length` used as a truthy value: some character is
not whitespace. -/
def trimNonempty (l : List Char) : Bool := l.any (fun c => ¬ isJsWs c)

/-- The prefix of a list up to and including the first newline (the whole
list when it has no newline): the contract of `Reader.line` (spec 4.1). -/
def takeThroughNl : List Char → List Char
  | [] => []
  | c :: rest => if c = '\n' then [c] else c :: takeThroughNl rest

/-- Length of the leading run of characters satisfying `p`. -/
def leadRun (p : Char → Bool) : List Char → Nat
  | [] => 0
  | c :: rest => if p c then leadRun p rest + 1 else 0

/-- An item descriptor of the List Structure Scanner
(`ListStructureItem` in `types.ts`). -/
structure LSItem where
  begin : Nat
  indent : Nat
  bullet : List Char
  counter : Option (List Char)
  checkbox : Option (List Char)
  tag : Option (List Char)
  end_ : Nat
deriving DecidableEq, Repr

/-- The AST nodes emitted by the parser (`u(type, props, children)` calls in
`parser.ts`), restricted to the node types the source can construct:
org-data, headline, section, paragraph, plain-list, item, link and text. -/
inductive ONode where
  | orgData (contentsBegin contentsEnd : Nat) (children : List ONode)
  | headline (level : Nat) (rawValue : List Char) (title : List ONode)
      (contentsBegin contentsEnd : Nat) (children : List ONode)
  | sectionN (contentsBegin contentsEnd : Nat) (children : List ONode)
  | paragraph (contentsBegin contentsEnd : Nat) (children : List ONode)
  | plainList (indent : Nat) (contentsBegin contentsEnd : Nat)
      (struct : List LSItem) (children : List ONode)
  | item (indent : Nat) (bullet : List Char) (checkbox : Option (List Char))
      (contentsBegin contentsEnd : Nat) (children : List ONode)
  | link (linkType : List Char) (rawLink : List Char) (children : List ONode)
  | text (value : List Char)

/-- The `type` tag of a node (the unist `type` field). -/
def ONode.typeTag : ONode → String
  | .orgData .. => "org-data"
  | .headline .. => "headline"
  | .sectionN .. => "section"
  | .paragraph .. => "paragraph"
  | .plainList .. => "plain-list"
  | .item .. => "item"
  | .link .. => "link"
  | .text .. => "text"

/-- The `contentsBegin` field of a node, when the node carries one. -/
def ONode.cbeg : ONode → Option Nat
  | .orgData b _ _ => some b
  | .headline _ _ _ b _ _ => some b
  | .sectionN b _ _ => some b
  | .paragraph b _ _ => some b
  | .plainList _ b _ _ _ => some b
  | .item _ _ _ b _ _ => some b
  | .link .. => none
  | .text _ => none

/-- The `contentsEnd` field of a node, when the node carries one. -/
def ONode.cend : ONode → Option Nat
  | .orgData _ e _ => some e
  | .headline _ _ _ _ e _ => some e
  | .sectionN _ e _ => some e
  | .paragraph _ e _ => some e
  | .plainList _ _ e _ _ => some e
  | .item _ _ _ _ e _ => some e
  | .link .. => none
  | .text _ => none

/-- The `structure` field of a node (`element?.structure` in `parser.ts`). -/
def ONode.structOf : ONode → Option (List LSItem)
  | .plainList _ _ _ s _ => some s
  | _ => none

/-- Replacement of a node's children (`element.children = ...`). -/
def ONode.withChildren : ONode → List ONode → ONode
  | .orgData b e _, cs => .orgData b e cs
  | .headline lv rv t b e _, cs => .headline lv rv t b e cs
  | .sectionN b e _, cs => .sectionN b e cs
  | .paragraph b e _, cs => .paragraph b e cs
  | .plainList i b e s _, cs => .plainList i b e s cs
  | .item i bu ch b e _, cs => .item i bu ch b e cs
  | .link lt rl _, cs => .link lt rl cs
  | .text v, _ => .text v

/-- Errors raised by the parser at run time: the two progress guards
(`parser.ts` lines 83 and 156), the explicit `Error` throws in
`parseListStructure`, `parseItem` and `parseList`, the JavaScript
`TypeError`s that follow a failed non-null assertion or the string
restriction of line 311, and fuel exhaustion of the embedding. -/
inductive PErr where
  | noProgressElements
  | noProgressObjects
  | fullItemFailed
  | parseItemFullItemFailed
  | parseListCannotFind
  | typeError
  | fuel
deriving DecidableEq, Repr

/-- Modelled from the spec: the Reader (spec 4.1), a cursor over an immutable
buffer with a stack of narrow windows.  `stack` holds `(begin, end,
savedOffset)` triples pushed by `narrow` (spec 9: "an explicit LIFO of
`(begin, end, savedOffset)` triples"). -/
structure Reader where
  buf : List Char
  pos : Nat
  winStart : Nat
  winEnd : Nat
  stack : List (Nat × Nat × Nat)
deriving DecidableEq, Repr

/-- Modelled from the spec: a fresh Reader over a buffer. -/
def Reader.mk' (text : List Char) : Reader :=
  ⟨text, 0, 0, text.length, []⟩

/-- Modelled from the spec: `offset()`. -/
def Reader.offset (r : Reader) : Nat := r.pos

/-- Modelled from the spec: `endOffset()` is the current visible end. -/
def Reader.endOffset (r : Reader) : Nat := r.winEnd

/-- Modelled from the spec: `eof()` is `offset() == endOffset()`. -/
def Reader.eof (r : Reader) : Bool := r.pos = r.winEnd

/-- Modelled from the spec: `rest()`, the visible bytes from cursor to the
visible end. -/
def Reader.rest (r : Reader) : List Char := (r.buf.take r.winEnd).drop r.pos

/-- Modelled from the spec: `peek(n)`. -/
def Reader.peek (r : Reader) (n : Nat) : List Char := r.rest.take n

/-- Modelled from the spec: `line()`, bytes from the cursor through the next
newline inclusive, or through the visible end. -/
def Reader.line (r : Reader) : List Char := takeThroughNl r.rest

/-- Modelled from the spec: `advance(n)` by a byte count. -/
def Reader.advanceN (r : Reader) (n : Nat) : Reader := { r with pos := r.pos + n }

/-- Modelled from the spec: `advance(string)` moves by the string's length
(`parser.ts` passes `this.r.line()` to `advance`). -/
def Reader.advanceS (r : Reader) (s : List Char) : Reader := r.advanceN s.length

/-- Modelled from the spec: `resetOffset(abs)` sets the cursor to an absolute
offset. -/
def Reader.resetOffset (r : Reader) (abs : Nat) : Reader := { r with pos := abs }

/-- Modelled from the spec: `narrow(begin, end)` pushes the current window
and repositions the cursor to `begin`. -/
def Reader.narrow (r : Reader) (b e : Nat) : Reader :=
  { r with winStart := b, winEnd := e, pos := b,
           stack := (r.winStart, r.winEnd, r.pos) :: r.stack }

/-- Modelled from the spec: `widen(preservePosition?)` pops the window; by
default the cursor is restored to its value at `narrow` time. -/
def Reader.widen (r : Reader) (preservePosition : Bool) : Reader :=
  match r.stack with
  | [] => r
  | (b, e, saved) :: rest =>
      { r with winStart := b, winEnd := e, stack := rest,
               pos := if preservePosition then r.pos else saved }

/-- Modelled from the spec: `substring(a, b)` reads the underlying buffer
regardless of the window. -/
def Reader.substringAbs (r : Reader) (a b : Nat) : List Char :=
  (r.buf.take b).drop a

/-- Search with JavaScript multiline `^` anchoring: the least index that is
the start of the slice or follows a newline and at which `pred` accepts the
remaining characters.  `pred` is also tried at the final empty position when
the slice ends in a newline, matching a trailing `$`-only line. -/
def findLineStart (pred : List Char → Bool) : List Char → Nat → Bool → Option Nat
  | s, i, atLS =>
    if atLS && pred s then some i
    else
      match s with
      | [] => none
      | c :: rest => findLineStart pred rest (i + 1) (c = '\n')

/-- Entry point of `findLineStart`: index 0 is a line start. -/
def findM (pred : List Char → Bool) (s : List Char) : Option Nat :=
  findLineStart pred s 0 true

/-- Recognizer for `\*+[ \t]` at a position: a heading line in the correct
spelling (`parser.ts` line 197, and line 266 with a star bound).
`maxStars : Option Nat` caps the star count for `\*{1,level}`. -/
def headingPred (maxStars : Option Nat) (s : List Char) : Bool :=
  let run := leadRun (fun c => c = '*') s
  decide (1 ≤ run) &&
    (match maxStars with | none => true | some m => decide (run ≤ m)) &&
    (match s.drop run with
     | c :: _ => c = ' ' || c = '\t'
     | [] => false)

/-- Recognizer for the regex literal `/^\*+[ \\t]/m` of `parseSection`
(`parser.ts` line 288): inside a regex literal `[ \\t]` is the character
class containing a space, a backslash and the letter `t` (not a tab). -/
def sectionHeadingPred (s : List Char) : Bool :=
  let run := leadRun (fun c => c = '*') s
  decide (1 ≤ run) &&
    (match s.drop run with
     | c :: _ => c = ' ' || c = '\\' || c = 't'
     | [] => false)

/-- `atHeading` test `/^\*+ /` (`parser.ts` line 525): one or more stars then
a space, anchored at the cursor. -/
def atHeadingPred (s : List Char) : Bool :=
  let run := leadRun (fun c => c = '*') s
  decide (1 ≤ run) &&
    (match s.drop run with
     | c :: _ => c = ' '
     | [] => false)

/-- Anchored match of `^(\*+)[ \t]+` (`parser.ts` line 242): returns the
star count and the full match length (stars plus the run of blanks). -/
def starsMatch (s : List Char) : Option (Nat × Nat) :=
  let run := leadRun (fun c => c = '*') s
  if run = 0 then none
  else
    let ws := leadRun (fun c => c = ' ' ∨ c = '\t') (s.drop run)
    if ws = 0 then none else some (run, run + ws)

/-- Anchored match of `/^.*/` (`parser.ts` line 249): the length of the
maximal newline-free prefix (`.` does not match a newline). -/
def dotStarLen (s : List Char) : Nat := leadRun (fun c => c ≠ '\n') s

/-- Result of one attempt of the bracket-link regex body after `[[`:
link length, optional description capture, and the number of characters
matched after the two opening brackets. -/
abbrev LBRes := Nat × Option (List Char) × Nat

/-- Candidate consumption lengths for one atom of the link group of the
bracket-link regex `(?<link>([^\[\]]|\\(\\\\)*[\[\]]|\\+[^\[\]])+)`
(`parser.ts` line 297), listed in the engine's backtracking order: the
single-character alternative `[^\[\]]` first, then `\\(\\\\)*[\[\]]` with the
greedy pair count descending, then `\\+[^\[\]]` with the greedy backslash
count descending. -/
def lbAtomCandidates (s : List Char) : List Nat :=
  let first :=
    match s with
    | c :: _ => if c ≠ '[' && c ≠ ']' then [1] else []
    | [] => []
  let run := leadRun (fun c => c = '\\') s
  let bAlt := ((List.range run).reverse.map (· + 1)).filterMap (fun j =>
    if j % 2 = 1 then
      match s.get? j with
      | some c => if c = '[' || c = ']' then some (j + 1) else none
      | none => none
    else none)
  let cAlt := ((List.range run).reverse.map (· + 1)).filterMap (fun k =>
    match s.get? k with
    | some c => if c ≠ '[' && c ≠ ']' then some (k + 1) else none
    | none => none)
  first ++ bAlt ++ cAlt

/-- Lazy description capture `(?<text>.+?)` continued by `\]\]`: after at
least one consumed character, stop at the first position followed by two
closing brackets; `.` does not match a newline. -/
def lazyDescrGo (acc : List Char) : List Char → Option (List Char)
  | [] => none
  | c :: rest =>
    if (c :: rest).take 2 = [']', ']'] then some acc.reverse
    else if c = '\n' then none
    else lazyDescrGo (c :: acc) rest

/-- Entry of the lazy description capture: the first character is consumed
unconditionally (`.+?` needs at least one character). -/
def lazyDescr : List Char → Option (List Char)
  | [] => none
  | c :: rest => if c = '\n' then none else lazyDescrGo [c] rest

/-- After the link group: `\](\[(?<text>.+?)\])?\]`.  The optional
description group is attempted first (greedy `?`); on failure the final
closing bracket is expected directly. -/
def lbClose (s : List Char) (consumed : Nat) : Option LBRes :=
  match s with
  | ']' :: rest =>
    let noDescr : Option LBRes :=
      match rest with
      | ']' :: _ => some (consumed, none, consumed + 2)
      | _ => none
    (match rest with
     | '[' :: rest2 =>
         match lazyDescr rest2 with
         | some t => some (consumed, some t, consumed + 1 + 1 + t.length + 1 + 1)
         | none => noDescr
     | _ => noDescr)
  | _ => none

/-- Backtracking over the candidate atoms: try to extend the link group with
each candidate (preferring extension, as a greedy repetition does), and when
every extension fails, close the group, which requires at least one consumed
character. -/
def lbTryAtoms (recur : List Char → Nat → Option LBRes) :
    List Nat → List Char → Nat → Option LBRes
  | [], s, consumed => if 1 ≤ consumed then lbClose s consumed else none
  | len :: more, s, consumed =>
      match recur (s.drop len) (consumed + len) with
      | some r => some r
      | none => lbTryAtoms recur more s consumed

/-- The link-group repetition with fuel (one unit per consumed atom; each
atom consumes at least one character, so `length + 1` fuel is exact).  The
fuel recursion is tied with `Nat.rec` so that the definition reduces by
iota steps. -/
def lbRep : Nat → List Char → Nat → Option LBRes
  | 0, _, _ => none
  | fuel + 1, s, consumed => lbTryAtoms (lbRep fuel) (lbAtomCandidates s) s consumed

/-- A match of the bracket-link regex: start index within the slice, the
`link` capture, the optional `text` capture, and the length of the whole
match. -/
structure LBMatch where
  index : Nat
  link : List Char
  descr : Option (List Char)
  len : Nat
deriving DecidableEq, Repr

/-- Anchored attempt of the bracket-link regex at the head of the slice. -/
def linkBracketAt (s : List Char) : Option (List Char × Option (List Char) × Nat) :=
  match s with
  | '[' :: '[' :: rest =>
      match lbRep (rest.length + 1) rest 0 with
      | some (linkLen, t, after) => some (rest.take linkLen, t, 2 + after)
      | none => none
  | _ => none

/-- Unanchored search of the bracket-link regex (`parser.ts` line 303 calls
`match` without an anchor, so the whole visible slice is searched): the
leftmost start position wins. -/
def linkBracketGo : List Char → Nat → Option LBMatch
  | s, i =>
    match linkBracketAt s with
    | some (link, t, len) => some ⟨i, link, t, len⟩
    | none =>
        match s with
        | [] => none
        | _ :: rest => linkBracketGo rest (i + 1)

/-- Search entry for the bracket-link regex. -/
def linkBracketSearch (s : List Char) : Option LBMatch := linkBracketGo s 0

/-- Lazy scan of `(.+?):` from a fixed start: consume one character (not a
newline), then stop at the first colon. -/
def lazyColonGo (acc : List Char) : List Char → Option (List Char)
  | [] => none
  | ':' :: _ => some acc.reverse
  | c :: rest => if c = '\n' then none else lazyColonGo (c :: acc) rest

/-- One start position of the `(.+?):` search: `.` must match the first
character (so it is not a newline; it may itself be a colon), and then the
scan runs to the first colon. -/
def lazyColonStart : List Char → Option (List Char)
  | [] => none
  | c :: rest => if c = '\n' then none else lazyColonGo [c] rest

/-- Search of `TARGET.match(/(.+?):/)` (`parser.ts` line 315): leftmost
start, then shortest capture — the capture is the group before the first
reachable colon on the same line. -/
def jsLazyColon : List Char → Option (List Char)
  | [] => none
  | c :: rest =>
      match lazyColonStart (c :: rest) with
      | some g => some g
      | none => jsLazyColon rest

/-- The `linkType` computation of `parseLink` (`parser.ts` lines 315-320):
the capture of `(.+?):` on the target, or `fuzzy` when the regex misses. -/
def linkTypeOf (target : List Char) : List Char :=
  match jsLazyColon target with
  | some g => g
  | none => "fuzzy".toList

/-- Anchored match of `/^(\S+):\S+/` (`parser.ts` line 331): the greedy
first group captures up to the last colon of the maximal non-whitespace run
that still leaves a non-whitespace character; the whole match is that run. -/
def plainLinkMatch (s : List Char) : Option (List Char × Nat) :=
  let w := leadRun (fun c => ¬ isJsWs c) s
  let target := s.take w
  match ((List.range w).filter (fun p =>
      decide (1 ≤ p) && decide (p + 1 < w) && (target.get? p == some ':'))).getLast? with
  | some p => some (target.take p, w)
  | none => none

/-- True when the position is at the end of a line: end of the slice or a
newline character. -/
def eolAt : List Char → Bool
  | [] => true
  | c :: _ => c = '\n'

/-- Space or tab. -/
def isSpTab (c : Char) : Bool := c = ' ' || c = '\t'

/-- Modelled from the spec: the bullet of an item line (spec 3: bullets are
`-`, `+`, `*`, or a counter such as `1.` or `2)`); returns the bullet-core
length. -/
def bulletCore (s : List Char) : Option Nat :=
  match s with
  | c :: _ =>
      if c = '-' || c = '+' || c = '*' then some 1
      else
        let d := leadRun (fun c => c.isDigit) s
        if 1 ≤ d then
          match s.get? d with
          | some '.' => some (d + 1)
          | some ')' => some (d + 1)
          | _ => none
        else none
  | [] => none

/-- Modelled from the spec: the item-line pattern `itemRe` (spec 4.2/4.3.2):
leading indentation, then a bullet, then a space, a tab or the end of the
line; returns the indentation width (the `indent` capture group used by the
scanner). -/
def itemMatch (s : List Char) : Option Nat :=
  let ind := leadRun isSpTab s
  match bulletCore (s.drop ind) with
  | none => none
  | some bl =>
      let after := s.drop (ind + bl)
      if 1 ≤ leadRun isSpTab after || eolAt after then some ind else none

/-- A match of the full item pattern: total length of the match and the
`bullet`, `counter`, `checkbox` and `tag` capture groups. -/
structure FullItemM where
  len : Nat
  bullet : List Char
  counter : Option (List Char)
  checkbox : Option (List Char)
  tag : Option (List Char)
deriving DecidableEq, Repr

/-- Modelled from the spec: the tag separator of a descriptive item
(`TAG :: ...`): the greedy tag capture splits at the last position of the
line followed by blanks, two colons, and blanks or the end of the line.
Returns the tag and the length consumed from the start of the line rest. -/
def tagSplit (lr : List Char) : Option (List Char × Nat) :=
  (((List.range (lr.length + 1)).reverse).filterMap (fun a =>
    let after := lr.drop a
    let w1 := leadRun isSpTab after
    if 1 ≤ w1 && (after.drop w1).take 2 = [':', ':'] then
      let a2 := after.drop (w1 + 2)
      let w2 := leadRun isSpTab a2
      if 1 ≤ w2 || a2.isEmpty then some (lr.take a, a + w1 + 2 + w2)
      else none
    else none)).head?

/-- Modelled from the spec: the full item pattern `fullItemRe` (spec 4.2,
4.3.4): indentation, bullet (captured with its trailing blanks), an optional
checkbox `[ ]`, `[x]`, `[X]` or `[-]` followed by blanks or end of line, and
an optional `TAG ::` tag. -/
def fullItemMatch (s : List Char) : Option FullItemM :=
  let ind := leadRun isSpTab s
  match bulletCore (s.drop ind) with
  | none => none
  | some bl =>
      let wsA := leadRun isSpTab (s.drop (ind + bl))
      if 1 ≤ wsA || eolAt (s.drop (ind + bl)) then
        let bullet := (s.drop ind).take (bl + wsA)
        let counter := if 2 ≤ bl then some ((s.drop ind).take (bl - 1)) else none
        let p2 := ind + bl + wsA
        let cbM : Option (List Char × Nat) :=
          match (s.drop p2).take 3 with
          | ['[', c, ']'] =>
              if c = ' ' || c = 'x' || c = 'X' || c = '-' then
                let wsB := leadRun isSpTab (s.drop (p2 + 3))
                if 1 ≤ wsB || eolAt (s.drop (p2 + 3)) then
                  some ((s.drop p2).take 3, 3 + wsB)
                else none
              else none
          | _ => none
        let p3 := p2 + (match cbM with | some (_, n) => n | none => 0)
        let lr := (s.drop p3).takeWhile (fun c => c ≠ '\n')
        match tagSplit lr with
        | some (tag, n) =>
            some ⟨p3 + n, bullet, counter, cbM.map Prod.fst, some tag⟩
        | none => some ⟨p3, bullet, counter, cbM.map Prod.fst, none⟩
      else none

/-- A blank line: blanks up to the end of the line. -/
def blankLinePred (s : List Char) : Bool := eolAt (s.drop (leadRun isSpTab s))

/-- Modelled from the spec: the paragraph separator pattern (spec 9: at
minimum blank lines, heading lines and item-start lines, matching the
constructs the implementation supports), searched with multiline `^`. -/
def paragraphSeparatePred (s : List Char) : Bool :=
  blankLinePred s || headingPred none s || (itemMatch s).isSome

/-- Modelled from the spec: `paragraphSeparateRe()` searched over the
visible slice; returns the index of the separator. -/
def paragraphSeparateFind (s : List Char) : Option Nat :=
  findM paragraphSeparatePred s

/-- Modelled from the spec: the list-ending pattern (spec 4.2: two
consecutive blank lines), tested at the cursor — the scanner only consults
`match(listEndRe())?.index === 0`. -/
def listEndAtCursor (s : List Char) : Bool :=
  let i := leadRun isSpTab s
  match s.drop i with
  | '\n' :: rest2 =>
      let j := leadRun isSpTab rest2
      (match rest2.drop j with
       | '\n' :: _ => true
       | _ => false)
  | _ => false

/-- The regex literal `/^[ \t]*$/` of `parser.ts` line 471: without the
multiline flag, `$` anchors at the end of the visible slice, so the match
succeeds only when the whole remaining slice is blanks. -/
def blankWholeSlice (s : List Char) : Bool := s.all isSpTab

/-- Modelled from the spec: the object-alternation regex of `parseObjects`
(`parser.ts` lines 126-150): either an object starting with `[[`, or a
plain link; `linkPlainRe()` is modelled from spec 4.3.8 ("a scheme-like
prefix `SCHEME:NON_WHITESPACE+`"), matching the anchored plain-link regex
that `parseLink` itself uses. -/
def objectRegexpAt (s : List Char) : Bool :=
  s.take 2 = ['[', '['] || (plainLinkMatch s).isSome

/-- Search of the object-alternation regex over the visible slice; only the
match index is consumed by the driver (`parser.ts` lines 160-168). -/
def objectMatchIdx : List Char → Nat → Option Nat
  | s, i =>
    if objectRegexpAt s then some i
    else
      match s with
      | [] => none
      | _ :: rest => objectMatchIdx rest (i + 1)

/-- Modelled from the spec: the `restriction` table (spec 4.3.9: "for the
required core the restriction set is parameterized by element type and
returns at minimum `{link, text}` for all elements"). -/
def restriction (_elementType : String) : List String := ["link", "text"]

/-- Modelled from the spec: the set of greater element types (spec glossary:
"a syntactic unit that may contain other elements (e.g. section, headline,
plain-list, item)"). -/
def greaterElements : List String := ["headline", "section", "plain-list", "item"]

/-- The argument passed to `parseObjects`: either a proper restriction set,
or — at `parser.ts` line 311 — the plain string `'link'`. -/
inductive RArg where
  | set (l : List String)
  | str (s : String)
deriving DecidableEq, Repr

/-- JavaScript `restriction.has('link')`: defined on a `Set`, a `TypeError`
on a string. -/
def RArg.hasStr : RArg → String → Except PErr Bool
  | .set l, s => .ok (l.contains s)
  | .str _, _ => .error .typeError

/-- `parseEmptyLines` (`parser.ts` lines 505-514) via `parseMulti`: consume
blank lines until a non-blank line; an empty line result is falsy in
JavaScript and also stops the loop.  The fuel is exact: every continuing
iteration consumes at least one character. -/
def parseEmptyLinesGo : Nat → Reader → Reader
  | 0, r => r
  | fuel + 1, r =>
    let line := r.line
    if trimEmpty line then
      let r := r.advanceN line.length
      if line.isEmpty then r else parseEmptyLinesGo fuel r
    else r

/-- Entry of `parseEmptyLines`; only the reader is returned (no caller uses
the returned lines). -/
def parseEmptyLines (r : Reader) : Reader :=
  parseEmptyLinesGo (r.winEnd + 1 - r.pos) r


/-- Result of a parser step: a value together with the reader state, or a
raised error.  (A dedicated two-constructor type rather than `Except` of a
pair, so that the value and the reader are separate constructor fields.) -/
inductive PRes (α : Type) where
  | ok (val : α) (rd : Reader)
  | err (e : PErr)
deriving Repr

/-- The value of a successful result. -/
def PRes.val? : PRes α → Option α
  | .ok v _ => some v
  | .err _ => none

/-- The reader of a successful result. -/
def PRes.rd? : PRes α → Option Reader
  | .ok _ r => some r
  | .err _ => none

/-- The error of a failed result. -/
def PRes.err? : PRes α → Option PErr
  | .ok _ _ => none
  | .err e => some e

/-- `parseLink` (`parser.ts` lines 294-339).  `recur` is the recursive call
to `parseObjects`; at line 311 the source passes the plain string `'link'`
for the restriction argument.  `advance(m)` with a missed match is a no-op,
after which the `break` leads to `return null`. -/
def parseLink (recur : RArg → Reader → PRes (List ONode)) (r : Reader) :
    PRes (Option ONode) :=
  let initialOffset := r.offset
  match r.peek 1 with
  | ['['] =>
      (match linkBracketSearch r.rest with
       | none => .ok none r
       | some m =>
          let r := r.advanceN (m.index + m.len)
          match m.descr with
          | some t =>
              let contentStart := initialOffset + 2 + m.link.length + 2
              let contentEnd := contentStart + t.length
              (match recur (.str "link") (r.narrow contentStart contentEnd) with
               | .err e => .err e
               | .ok children r2 =>
                  .ok (some (.link (linkTypeOf m.link) m.link children)) (r2.widen false))
          | none => .ok (some (.link (linkTypeOf m.link) m.link [])) r)
  | _ =>
      match plainLinkMatch r.rest with
      | none => .ok none r
      | some (scheme, len) =>
          .ok (some (.link scheme (r.peek len) [])) (r.advanceN len)

/-- `parseObject` (`parser.ts` lines 221-239): dispatch on the two-byte
lookahead; for `[` not followed by `[` the switch falls through to
`return null` without consulting the restriction. -/
def parseObject (recur : RArg → Reader → PRes (List ONode)) (restr : RArg)
    (r : Reader) : PRes (Option ONode) :=
  match r.peek 2 with
  | '[' :: '[' :: _ =>
      (match restr.hasStr "link" with
       | .error e => .err e
       | .ok b => if b then parseLink recur r else .ok none r)
  | '[' :: _ => .ok none r
  | _ =>
      match restr.hasStr "link" with
      | .error e => .err e
      | .ok b => if b then parseLink recur r else .ok none r

/-- The tail of a `parseObjects` iteration after the pre-match text has
been handled (`parser.ts` lines 172-177): dispatch `parseObject`, push the
object when one was produced, and continue the loop. -/
def poAfterObject (recur : RArg → Option Nat → List ONode → Reader → PRes (List ONode))
    (restr : RArg) (offset : Nat) (acc : List ONode) (r : Reader) : PRes (List ONode) :=
  match parseObject (fun rg rr => recur rg none [] rr) restr r with
  | .err e => .err e
  | .ok o r2 =>
      recur restr (some offset) (match o with | some o => o :: acc | none => acc) r2

/-- One iteration of the `while (true)` loop of `parseObjects`
(`parser.ts` lines 152-187) with its progress guard, pre-match text
emission, object dispatch, and trailing-text emission; the accumulator is
kept reversed.  `recur` is the loop at the remaining fuel. -/
def poLoopStep (recur : RArg → Option Nat → List ONode → Reader → PRes (List ONode))
    (restr : RArg) (prev : Option Nat) (acc : List ONode) (r : Reader) :
    PRes (List ONode) :=
  let offset := r.offset
  if prev = some offset then .err .noProgressObjects
  else
    match objectMatchIdx r.rest 0 with
    | none =>
        let txt := r.rest
        if trimNonempty txt then .ok (ONode.text txt :: acc).reverse (r.advanceN txt.length)
        else .ok acc.reverse (r.advanceN txt.length)
    | some idx =>
        if idx ≠ 0 then
          poAfterObject recur restr offset (ONode.text (r.peek idx) :: acc) (r.advanceN idx)
        else
          poAfterObject recur restr offset acc r

/-- The `parseObjects` loop: fuel recursion over `poLoopStep`. -/
def poLoop : Nat → RArg → Option Nat → List ONode → Reader → PRes (List ONode)
  | 0, _, _, _, _ => .err .fuel
  | fuel + 1, restr, prev, acc, r => poLoopStep (poLoop fuel) restr prev acc r

/-- `parseObjects` (`parser.ts` lines 115-187). -/
def parseObjects (fuel : Nat) (restr : RArg) (r : Reader) : PRes (List ONode) :=
  poLoop fuel restr none [] r

/-- `parseHeadline` (`parser.ts` lines 241-284). -/
def parseHeadline (fuel : Nat) (r : Reader) : PRes ONode :=
  match starsMatch r.rest with
  | none => .err .typeError
  | some (level, starsLen) =>
      let r := r.advanceN starsLen
      let titleLen := dotStarLen r.rest
      let titleStart := r.offset
      let titleEnd := titleStart + titleLen
      let rawValue := r.substringAbs titleStart titleEnd
      let r := r.advanceN titleLen
      match parseObjects fuel (.set (restriction "headline")) (r.narrow titleStart titleEnd) with
      | .err e => .err e
      | .ok title r2 =>
          let r := r2.widen false
          let r := r.advanceS r.line
          let r := parseEmptyLines r
          let contentsBegin := r.offset
          match findM (headingPred (some level)) r.rest with
          | some i =>
              .ok (.headline level rawValue title contentsBegin (contentsBegin + i) [])
                (r.resetOffset (contentsBegin + i))
          | none =>
              .ok (.headline level rawValue title contentsBegin r.endOffset [])
                (r.resetOffset r.endOffset)

/-- `parseSection` (`parser.ts` lines 286-292), with the regex literal
`/^\*+[ \\t]/m` embedded as `sectionHeadingPred`. -/
def parseSection (r : Reader) : PRes ONode :=
  let begin_ := r.offset
  match findM sectionHeadingPred r.rest with
  | some i => .ok (.sectionN begin_ (begin_ + i) []) (r.resetOffset (begin_ + i))
  | none => .ok (.sectionN begin_ r.endOffset []) (r.resetOffset r.endOffset)

/-- `parseParagraph` (`parser.ts` lines 361-369). -/
def parseParagraph (r : Reader) : PRes ONode :=
  let contentsBegin := r.offset
  match paragraphSeparateFind r.rest with
  | some i =>
      .ok (.paragraph contentsBegin (contentsBegin + i) [])
        (parseEmptyLines (r.resetOffset (contentsBegin + i)))
  | none =>
      .ok (.paragraph contentsBegin r.endOffset [])
        (parseEmptyLines (r.resetOffset r.endOffset))

/-- The `while (true)` walk of `parseList` (`parser.ts` lines 386-392):
hop to the entry whose `begin` is the current position at the list indent.
A fuel of `length + 1` is sufficient whenever every entry satisfies
`begin < end`; exhaustion models the JavaScript infinite loop. -/
def listWalk : Nat → List LSItem → Nat → Nat → Except PErr Nat
  | 0, _, _, _ => .error .fuel
  | fuel + 1, struct, indent, pos =>
      match struct.find? (fun x => x.begin == pos && x.indent == indent) with
      | none => .ok pos
      | some next => listWalk fuel struct indent next.end_

/-- `parseList` (`parser.ts` lines 371-402). -/
def parseList (struct : List LSItem) (r : Reader) : PRes ONode :=
  let contentsBegin := r.offset
  match struct.find? (fun x => x.begin == contentsBegin) with
  | none => .err .parseListCannotFind
  | some item =>
      match listWalk (struct.length + 1) struct item.indent item.end_ with
      | .error e => .err e
      | .ok contentsEnd =>
          .ok (.plainList item.indent contentsBegin contentsEnd struct [])
            (r.resetOffset contentsEnd)

/-- `parseItem` (`parser.ts` lines 404-429).  A missing structure argument
or a failed lookup is a JavaScript `TypeError` at the `item.end` access. -/
def parseItem (struct? : Option (List LSItem)) (r : Reader) : PRes ONode :=
  let offset := r.offset
  match fullItemMatch r.rest with
  | none => .err .parseItemFullItemFailed
  | some m =>
      let r := r.advanceN m.len
      let checkbox : Option (List Char) :=
        if m.checkbox = some "[ ]".toList then some "off".toList
        else if m.checkbox = some "[x]".toList || m.checkbox = some "[X]".toList then
          some "on".toList
        else if m.checkbox = some "[-]".toList then some "trans".toList
        else none
      let found : Option LSItem :=
        match struct? with
        | none => none
        | some struct => struct.find? (fun x => x.begin == offset)
      match found with
      | none => .err .typeError
      | some item =>
          .ok (.item item.indent m.bullet checkbox r.offset item.end_ [])
            (r.resetOffset item.end_)

/-- The sibling-closing pops of the scanner (`parser.ts` lines 443-447 and
478-482): pop open items whose indent is at least the current indent,
fixing their `end` at the current offset and appending them to `struct`. -/
def closeSiblings (indent off : Nat) :
    List LSItem → List LSItem → List LSItem × List LSItem
  | top :: rest, struct =>
      if indent ≤ top.indent then
        closeSiblings indent off rest (struct ++ [{ top with end_ := off }])
      else (top :: rest, struct)
  | [], struct => ([], struct)

/-- One iteration of the main loop of `parseListStructure` (`parser.ts`
lines 434-492); the returned pair carries the still-open item stack and the
closed accumulator.  `recur` is the loop at the remaining fuel. -/
def plsLoopStep (recur : List LSItem → List LSItem → Reader → PRes (List LSItem × List LSItem))
    (items struct : List LSItem) (r : Reader) : PRes (List LSItem × List LSItem) :=
  if r.eof || listEndAtCursor r.rest then .ok (items, struct) r
  else
    match itemMatch r.rest with
    | some indent =>
        let p := closeSiblings indent r.offset items struct
        (match fullItemMatch r.rest with
         | none => .err .fullItemFailed
         | some fm =>
             let item : LSItem :=
               ⟨r.offset, indent, fm.bullet, fm.counter, fm.checkbox, fm.tag, r.offset⟩
             recur (item :: p.1) p.2 (r.advanceS r.line))
    | none =>
        if blankWholeSlice r.rest then recur items struct (r.advanceS r.line)
        else
          let indent := leadRun isSpTab r.rest
          let p := closeSiblings indent r.offset items struct
          if p.1.isEmpty then .ok (p.1, p.2) r
          else recur p.1 p.2 (r.advanceS r.line)

/-- The `parseListStructure` loop: fuel recursion over `plsLoopStep`. -/
def plsLoop : Nat → List LSItem → List LSItem → Reader →
    PRes (List LSItem × List LSItem)
  | 0, _, _, _ => .err .fuel
  | fuel + 1, items, struct, r => plsLoopStep (plsLoop fuel) items struct r

/-- Stable insertion for the final `sort((a, b) => a.begin - b.begin)`. -/
def insertByBegin (x : LSItem) : List LSItem → List LSItem
  | [] => [x]
  | y :: rest => if x.begin ≤ y.begin then x :: y :: rest else y :: insertByBegin x rest

/-- Stable sort by `begin`. -/
def sortByBegin : List LSItem → List LSItem
  | [] => []
  | x :: rest => insertByBegin x (sortByBegin rest)

/-- `parseListStructure` (`parser.ts` lines 431-503): run the scan loop,
consume trailing blank lines, close every still-open item at the final
offset, and return the accumulated descriptors sorted by `begin`. -/
def parseListStructure (fuel : Nat) (r : Reader) : PRes (List LSItem) :=
  match plsLoop fuel [] [] r with
  | .err e => .err e
  | .ok p r2 =>
      let r := parseEmptyLines r2
      let end_ := r.offset
      .ok (sortByBegin (p.2 ++ p.1.reverse.map (fun it => { it with end_ := end_ }))) r

/-- `nextMode` (`parser.ts` lines 341-359). -/
def nextMode (mode : Option String) (type_ : String) (parent : Bool) : Option String :=
  if parent then
    if type_ = "headline" then some "section"
    else if mode = some "first-section" ∧ type_ = "section" then some "top-comment"
    else if type_ = "inlinetask" then some "planning"
    else if type_ = "plain-list" then some "item"
    else if type_ = "property-drawer" then some "node-property"
    else if type_ = "section" then some "planning"
    else if type_ = "table" then some "table-row"
    else none
  else
    if mode = some "item" then some "item"
    else if mode = some "node-property" then some "node-property"
    else if mode = some "planning" ∧ type_ = "planning" then some "property-drawer"
    else if mode = some "table-row" then some "table-row"
    else if mode = some "top-comment" ∧ type_ = "comment" then some "property-drawer"
    else none

/-- `atHeading` (`parser.ts` lines 524-526). -/
def atHeading (r : Reader) : Bool := atHeadingPred r.rest

/-- `parseElement` (`parser.ts` lines 189-219): dispatch on mode and leading
syntax; in the list branch with no supplied structure, scan the structure,
reset the cursor, then parse the list. -/
def parseElement (fuel : Nat) (mode : Option String) (struct? : Option (List LSItem))
    (r : Reader) : PRes ONode :=
  if mode = some "item" then parseItem struct? r
  else if atHeading r then parseHeadline fuel r
  else if mode = some "section" then parseSection r
  else if mode = some "first-section" then
    (match findM (headingPred none) r.rest with
     | some i =>
        (match parseSection (r.narrow r.offset (r.offset + i)) with
         | .err e => .err e
         | .ok result r2 => .ok result (r2.widen true))
     | none =>
        (match parseSection (r.narrow r.offset r.endOffset) with
         | .err e => .err e
         | .ok result r2 => .ok result (r2.widen true)))
  else if (itemMatch r.rest).isSome then
    match struct? with
    | none =>
        let offset := r.offset
        (match parseListStructure fuel r with
         | .err e => .err e
         | .ok struct r2 => parseList struct (r2.resetOffset offset))
    | some s => parseList s r
  else parseParagraph r

/-- The `while (!eof)` loop of `parseElements` (`parser.ts` lines 71-113)
with its progress guard: parse one element, attach its children — by a
recursive `parseElements` in a narrowed window for a greater element, by
`parseObjects` otherwise — and step the mode machine.  The accumulator is
kept reversed. -/
def peLoopStep (fuel : Nat)
    (recur : Option String → Option (List LSItem) → Option Nat → List ONode →
      Reader → PRes (List ONode))
    (mode : Option String) (struct? : Option (List LSItem)) (prev : Option Nat)
    (acc : List ONode) (r : Reader) : PRes (List ONode) :=
  if r.eof then .ok acc.reverse r
  else
    let offset := r.offset
    if prev = some offset then .err .noProgressElements
    else
      match parseElement fuel mode struct? r with
      | .err e => .err e
      | .ok element r =>
          let type_ := element.typeTag
          match element.cbeg, element.cend with
          | some cbeg, some cend =>
              if greaterElements.contains type_ then
                match recur (nextMode mode type_ true)
                    (match struct? with | some s => some s | none => element.structOf)
                    none [] (r.narrow cbeg cend) with
                | .err e => .err e
                | .ok cs r2 =>
                    recur (nextMode mode type_ false) struct? (some offset)
                      (element.withChildren cs :: acc) (r2.widen false)
              else
                match parseObjects fuel (.set (restriction type_)) (r.narrow cbeg cend) with
                | .err e => .err e
                | .ok objs r2 =>
                    recur (nextMode mode type_ false) struct? (some offset)
                      (element.withChildren objs :: acc) (r2.widen false)
          | _, _ =>
              recur (nextMode mode type_ false) struct? (some offset)
                (element :: acc) r

/-- The `parseElements` loop: fuel recursion over `peLoopStep` (the inner
element and object parsers also receive the remaining fuel). -/
def peLoop : Nat → Option String → Option (List LSItem) → Option Nat →
    List ONode → Reader → PRes (List ONode)
  | 0, _, _, _, _, _ => .err .fuel
  | fuel + 1, mode, struct?, prev, acc, r =>
      peLoopStep fuel (peLoop fuel) mode struct? prev acc r

/-- `parseElements` (`parser.ts` lines 71-113). -/
def parseElements (fuel : Nat) (mode : Option String) (struct? : Option (List LSItem))
    (r : Reader) : PRes (List ONode) :=
  peLoop fuel mode struct? none [] r

/-- `parse` (`parser.ts` lines 61-69): skip leading blank lines, parse the
elements in `first-section` mode, and wrap them in the root node spanning
the whole buffer. -/
def parse (fuel : Nat) (text : List Char) : Except PErr ONode :=
  match parseElements fuel (some "first-section") none (parseEmptyLines (Reader.mk' text)) with
  | .err e => .error e
  | .ok children r => .ok (.orgData 0 r.endOffset children)

/-- Following the claim's words (C7): the substring of a link target before
its first colon. -/
def beforeFirstColon (t : List Char) : List Char := t.takeWhile (fun c => c ≠ ':')

/-- The hop relation described by claim C5: one step from position `p` to
position `q` through a structure entry whose `begin` is `p` and whose
indent is the list indent. -/
def HopStep (struct : List LSItem) (indent : Nat) (p q : Nat) : Prop :=
  ∃ e ∈ struct, e.begin = p ∧ e.indent = indent ∧ e.end_ = q

/-- A valid decomposition of a target for the `(.+?):` search: the capture
`g` is nonempty, newline-free, and immediately followed by a colon. -/
def LazyDecomp (t pre g : List Char) : Prop :=
  g ≠ [] ∧ '\n' ∉ g ∧ ∃ post, t = pre ++ g ++ ':' :: post

/-- The capture a backtracking engine finds for `(.+?):`: a valid
decomposition that starts leftmost, and among decompositions at the same
start is shortest. -/
def IsLazyColonCapture (t g : List Char) : Prop :=
  ∃ pre, LazyDecomp t pre g ∧
    ∀ pre' g', LazyDecomp t pre' g' →
      pre.length < pre'.length ∨ (pre.length = pre'.length ∧ g.length ≤ g'.length)

/-- The children of the root node. -/
def orgChildren : ONode → List ONode
  | .orgData _ _ cs => cs
  | _ => []

/-- C2: for every input containing `[[` not followed by a well-formed
bracket link, the claim says parse succeeds and the bracket text degrades
to a text node.  The code instead raises the `no progress` guard of
`parseObjects`: on `"[[x"` the object regex matches at index 0, `parseLink`
misses and returns null without advancing, and the next iteration throws. -/
theorem C2_unterminated_link_raises :
    parse 16 "[[x".toList = .error .noProgressObjects := by rfl

/-- C3: the claim says a null `parseObject` has not advanced the cursor
(true — first conjunct) and that the driver then consumes one byte as text
so the `no progress` error is never raised (false — second conjunct: the
recovery is a TODO in the source, and on `"[[y"` parse raises it). -/
theorem C3_no_recovery_raises :
    parseObject (fun rg rr => parseObjects 8 rg rr) (.set ["link", "text"])
        (Reader.mk' ("[[y".toList)) = .ok none (Reader.mk' ("[[y".toList)) ∧
    parse 16 "[[y".toList = .error .noProgressObjects := by
  exact ⟨by rfl, by rfl⟩

/-- C6: the claim says every bracket-link description is parsed under the
`link` restriction and this recursive parse always succeeds.  The code
passes the plain string `'link'` as the restriction (`parser.ts` line 311),
so `restriction.has` is a `TypeError` as soon as the description contains
an object start: `"[[a][x[[]]"` crashes. -/
theorem C6_link_restriction_string_type_error :
    parse 16 "[[a][x[[]]".toList = .error .typeError := by rfl

set_option maxHeartbeats 2000000 in
/-- C4: with the cursor inside `* H`'s contents, the window `"x\n*two\n"`
contains no heading line in the claim's sense (`findM (headingPred none)`
misses), so the claim says the section spans to the end of the window
(offset 11).  The code's regex literal `/^\*+[ \\t]/m` instead matches
`*t` of `*two` (its class is space, backslash, letter t), ending the
section at offset 6. -/
theorem C4_section_stops_at_star_t :
    parse 16 "* H\nx\n*two\n".toList =
      .ok (.orgData 0 11 [.headline 1 "H".toList [.text "H".toList] 4 11
        [.sectionN 4 6 [.paragraph 4 6 [.text "x\n".toList]],
         .paragraph 6 11 [.text "*two\n".toList]]]) ∧
    findM (headingPred none) "x\n*two\n".toList = none := by
  exact ⟨by rfl, by rfl⟩

set_option maxHeartbeats 2000000 in
/-- C1: on `"* a\n*\t"` the headline's subtree-end regex accepts a tab
(`^\*{1,1}[ \t]`) while `atHeading` requires a space, so the headline gets
an empty contents range `[4,4]` and the following element starts at the
same offset 4: the root's children have contentsBegin 4 and 4, which is
not strictly increasing as the claim requires. -/
theorem C1_strict_child_ordering_fails :
    parse 12 "* a\n*\t".toList =
      .ok (.orgData 0 6 [.headline 1 "a".toList [.text "a".toList] 4 4 [],
        .plainList 0 4 6 [⟨4, 0, "*\t".toList, none, none, none, 6⟩]
          [.item 0 "*\t".toList none 6 6 []]]) ∧
    ¬ (4 : Nat) < 4 := by
  exact ⟨by rfl, by decide⟩

/-- C7 counterexample: on target `":foo"` (which contains a colon) the
claim says linkType is the substring before the first colon, the empty
string; the code's `(.+?):` search misses (the colon has no preceding
character) and linkType is `fuzzy`. -/
theorem C7_linkType_counterexample :
    parse 16 "[[:foo]]".toList =
      .ok (.orgData 0 8 [.sectionN 0 8 [.paragraph 0 8
        [.link "fuzzy".toList ":foo".toList []]]]) ∧
    ":foo".toList.contains ':' = true ∧
    beforeFirstColon ":foo".toList = [] ∧
    "fuzzy".toList ≠ ([] : List Char) := by
  refine ⟨by rfl, by rfl, by rfl, by decide⟩

/-- C9 counterexample: in `"  [[a][b]]"` the object regex matches at index
2, and the two blanks before it are pushed as a text node unconditionally
(`parser.ts` lines 165-169 have no trim check), so an all-whitespace text
node appears among the produced objects. -/
theorem C9_whitespace_text_counterexample :
    (parseObjects 16 (.set ["link", "text"]) (Reader.mk' ("  [[a][b]]".toList))).val? =
      some [.text "  ".toList, .link "fuzzy".toList "a".toList [.text "b".toList]] ∧
    trimNonempty "  ".toList = false := by
  exact ⟨by rfl, by rfl⟩

/-- C8 counterexample: `parseListStructure` itself moves the cursor — on
`"- a\n"` it returns with the reader at offset 4, not at its entry offset 0
(the restoration happens in its caller `parseElement`). -/
theorem C8_scanner_moves_cursor_counterexample :
    ((parseListStructure 16 (Reader.mk' ("- a\n".toList))).rd?).map Reader.pos =
      some 4 ∧
    (Reader.mk' ("- a\n".toList)).pos = 0 ∧ (4 : Nat) ≠ 0 := by
  refine ⟨by rfl, by rfl, by decide⟩

/-- C8 amended: the scanner itself advances the cursor to the end of the
scanned region, and its caller `parseElement` saves the offset before the
call and restores it immediately afterwards, so `parseList` runs at the
offset the scanner was entered at. -/
theorem C8_caller_restores_offset (fuel : Nat) (r : Reader) (s : List LSItem)
    (r1 : Reader)
    (hhead : atHeading r = false)
    (hitem : (itemMatch r.rest).isSome = true)
    (hscan : parseListStructure fuel r = .ok s r1) :
    parseElement fuel none none r = parseList s (r1.resetOffset r.pos) ∧
    (r1.resetOffset r.pos).pos = r.pos := by
  refine ⟨?_, rfl⟩
  unfold parseElement
  simp [hhead, hitem, hscan, Reader.offset]

/-- Witness for `C8_caller_restores_offset` at the input `"- a\n"`. -/
theorem C8_caller_restores_offset_witness :
    parseElement 16 none none (Reader.mk' ("- a\n".toList)) =
      parseList [⟨0, 0, "- ".toList, none, none, none, 4⟩]
        ((⟨"- a\n".toList, 4, 0, 4, []⟩ : Reader).resetOffset 0) ∧
    ((⟨"- a\n".toList, 4, 0, 4, []⟩ : Reader).resetOffset 0).pos = 0 :=
  C8_caller_restores_offset 16 (Reader.mk' ("- a\n".toList))
    [⟨0, 0, "- ".toList, none, none, none, 4⟩] ⟨"- a\n".toList, 4, 0, 4, []⟩
    (by rfl) (by rfl) (by rfl)

/-- Every character of a line is a character of the underlying slice. -/
theorem takeThroughNl_mem {l : List Char} {c : Char} (h : c ∈ takeThroughNl l) :
    c ∈ l := by
  induction l with
  | nil => simp [takeThroughNl] at h
  | cons a t ih =>
      by_cases ha : a = '\n'
      · simp [takeThroughNl, ha] at h
        simp [h, ha]
      · simp [takeThroughNl, ha] at h
        rcases h with h | h
        · simp [h]
        · exact List.mem_cons_of_mem _ (ih h)

/-- A line is no longer than the slice it was taken from. -/
theorem takeThroughNl_length_le (l : List Char) :
    (takeThroughNl l).length ≤ l.length := by
  induction l with
  | nil => simp [takeThroughNl]
  | cons a t ih =>
      by_cases ha : a = '\n'
      · simp [takeThroughNl, ha]
      · simp [takeThroughNl, ha]
        omega

/-- The length of the visible slice. -/
theorem Reader.rest_length (r : Reader) (h : r.winEnd ≤ r.buf.length) :
    r.rest.length = r.winEnd - r.pos := by
  simp [Reader.rest, h, Nat.min_eq_left]

/-- On an all-blank visible slice, `parseEmptyLines` moves the cursor to the
visible end and changes nothing else. -/
theorem parseEmptyLinesGo_blank :
    ∀ (fuel : Nat) (r : Reader), r.winEnd ≤ r.buf.length → r.pos ≤ r.winEnd →
    r.winEnd + 1 ≤ fuel + r.pos →
    (∀ c ∈ r.rest, isJsWs c = true) →
    parseEmptyLinesGo fuel r = { r with pos := r.winEnd } := by
  intro fuel
  induction fuel with
  | zero => intro r h1 h2 h3 _; omega
  | succ fuel ih =>
      intro r h1 h2 h3 hb
      have hlen : r.rest.length = r.winEnd - r.pos := r.rest_length h1
      have htrim : trimEmpty r.line = true := by
        simp only [trimEmpty, List.all_eq_true]
        intro c hc
        exact hb c (takeThroughNl_mem hc)
      rcases hrest : r.rest with _ | ⟨c, t⟩
      · have hpos : r.pos = r.winEnd := by
          rw [hrest] at hlen; simp at hlen; omega
        have hline : r.line = [] := by simp [Reader.line, hrest, takeThroughNl]
        simp [parseEmptyLinesGo, hline, trimEmpty, Reader.advanceN, hpos]
      · have hline : r.line = takeThroughNl (c :: t) := by simp [Reader.line, hrest]
        have hlnil : ¬ (r.line.isEmpty = true) := by
          rw [hline]
          by_cases hc : c = '\n' <;> simp [takeThroughNl, hc]
        have hllen1 : 1 ≤ r.line.length := by
          rw [hline]; by_cases hc : c = '\n' <;> simp [takeThroughNl, hc]
        have hllen2 : r.line.length ≤ r.rest.length := by
          rw [hline, hrest]; exact takeThroughNl_length_le _
        have step : parseEmptyLinesGo (fuel + 1) r =
            parseEmptyLinesGo fuel (r.advanceN r.line.length) := by
          simp only [parseEmptyLinesGo, htrim, if_true, Reader.advanceS]
          simp [hlnil]
        rw [step]
        have hrest' : (r.advanceN r.line.length).rest = r.rest.drop r.line.length := by
          simp [Reader.rest, Reader.advanceN, List.drop_drop]
        rw [ih (r.advanceN r.line.length) h1 (by simp [Reader.advanceN]; omega)
          (by simp [Reader.advanceN]; omega)
          (by rw [hrest']; intro c hc; exact hb c (List.mem_of_mem_drop hc))]
        simp [Reader.advanceN]

/-- C10: parsing an input made only of blank lines (spaces, tabs and
newlines, including the empty input) yields the root node with no children,
`contentsBegin` 0 and `contentsEnd` the input length: the initial
`parseEmptyLines` consumes the whole buffer and `parseElements` stops at
end of input. -/
theorem C10_blank_input_parse (s : List Char) (f : Nat)
    (hb : ∀ c ∈ s, c = ' ' ∨ c = '\t' ∨ c = '\n') :
    parse (f + 1) s = .ok (.orgData 0 s.length []) := by
  have h0 : parseEmptyLines (Reader.mk' s) = { Reader.mk' s with pos := s.length } := by
    unfold parseEmptyLines
    apply parseEmptyLinesGo_blank
    · simp [Reader.mk']
    · simp [Reader.mk']
    · simp [Reader.mk']
    · intro c hc
      simp [Reader.rest, Reader.mk'] at hc
      rcases hb c hc with h | h | h <;> simp [isJsWs, h]
  unfold parse parseElements
  rw [h0]
  simp [peLoop, peLoopStep, Reader.eof, Reader.mk', Reader.endOffset]

/-- Witness for `C10_blank_input_parse` at the blank input `"  \n\t\n"`. -/
theorem C10_blank_input_parse_witness :
    parse 1 "  \n\t\n".toList = .ok (.orgData 0 5 []) :=
  C10_blank_input_parse "  \n\t\n".toList 0 (by decide)

/-- Counting helper: a predicate that holds for a member where a weaker one
fails counts strictly fewer elements. -/
theorem countP_lt_of {α : Type} (P Q : α → Bool) (l : List α) (x : α) (hx : x ∈ l)
    (himp : ∀ y, Q y = true → P y = true) (hP : P x = true) (hQ : Q x = false) :
    l.countP Q < l.countP P := by
  induction l with
  | nil => cases hx
  | cons a t ih =>
      have hmono : t.countP Q ≤ t.countP P :=
        List.countP_mono_left (fun y _ hy => himp y hy)
      rcases List.mem_cons.mp hx with rfl | hxt
      · simp only [List.countP_cons, hP, hQ]
        simp; omega
      · have := ih hxt
        simp only [List.countP_cons]
        by_cases ha : Q a = true
        · simp [ha, himp a ha]; omega
        · simp only [Bool.not_eq_true] at ha
          simp [ha]
          rcases hPa : P a <;> simp <;> omega

/-- With pairwise-distinct `begin` fields, `find?` at a member's `begin`
returns exactly that member. -/
theorem find?_begin_unique (S : List LSItem) (e : LSItem)
    (hU : S.Pairwise (fun a b => a.begin ≠ b.begin)) (he : e ∈ S) :
    S.find? (fun x => x.begin == e.begin) = some e := by
  induction S with
  | nil => cases he
  | cons a t ih =>
      rcases List.mem_cons.mp he with rfl | het
      · simp [List.find?_cons]
      · have hne : a.begin ≠ e.begin := (List.pairwise_cons.mp hU).1 e het
        have : (a.begin == e.begin) = false := by
          simpa using hne
        simp [List.find?_cons, this]
        exact ih (List.pairwise_cons.mp hU).2 het

/-- The `parseList` walk terminates when every entry satisfies
`begin < end`, and its result is reachable by hops and admits no further
hop at the list indent. -/
theorem listWalk_spec (S : List LSItem) (indent : Nat)
    (hlt : ∀ x ∈ S, x.begin < x.end_) :
    ∀ (fuel pos : Nat), S.countP (fun x => decide (pos ≤ x.begin)) < fuel →
    ∃ q, listWalk fuel S indent pos = .ok q ∧
      Relation.ReflTransGen (HopStep S indent) pos q ∧
      ∀ e ∈ S, ¬ (e.begin = q ∧ e.indent = indent) := by
  intro fuel
  induction fuel with
  | zero => intro pos h; omega
  | succ fuel ih =>
      intro pos hcount
      rcases hfind : S.find? (fun x => x.begin == pos && x.indent == indent) with _ | next
      · refine ⟨pos, ?_, .refl, ?_⟩
        · simp [listWalk, hfind]
        · intro e heS hcon
          have := List.find?_eq_none.mp hfind e heS
          simp [hcon.1, hcon.2] at this
      · have hnext := List.find?_some hfind
        have hmem := List.mem_of_find?_eq_some hfind
        simp only [Bool.and_eq_true, beq_iff_eq] at hnext
        have hpos' : pos < next.end_ := hnext.1 ▸ hlt next hmem
        have hdec : S.countP (fun x => decide (next.end_ ≤ x.begin)) <
            S.countP (fun x => decide (pos ≤ x.begin)) := by
          apply countP_lt_of _ _ S next hmem
          · intro y hy
            simp only [decide_eq_true_eq] at hy ⊢
            omega
          · simp only [decide_eq_true_eq]; omega
          · simp only [decide_eq_false_iff_not, not_le]
            omega
        obtain ⟨q, hwalk, hrtg, hnone⟩ := ih next.end_ (by omega)
        refine ⟨q, ?_, ?_, hnone⟩
        · simp [listWalk, hfind, hwalk]
        · exact .trans (.single ⟨next, hmem, hnext.1, hnext.2, rfl⟩) hrtg

/-- C5: with the cursor at the `begin` of some structure entry (over a
well-formed structure: distinct `begin`s and `begin < end`), `parseList`
takes that entry's indent as the list indent, computes `contentsEnd` by
hopping from the entry's `end` through entries whose `begin` equals the
current position at the same indent until none matches, emits a plain-list
node carrying the indent, the contents range and the full structure vector,
and moves the cursor to `contentsEnd`. -/
theorem C5_parseList_walk (S : List LSItem) (r : Reader) (e : LSItem)
    (hmem : e ∈ S) (hbeg : e.begin = r.pos)
    (hU : S.Pairwise (fun a b => a.begin ≠ b.begin))
    (hlt : ∀ x ∈ S, x.begin < x.end_) :
    ∃ cend r', parseList S r = .ok (.plainList e.indent r.pos cend S []) r' ∧
      r'.pos = cend ∧ r' = r.resetOffset cend ∧
      Relation.ReflTransGen (HopStep S e.indent) e.end_ cend ∧
      ∀ x ∈ S, ¬ (x.begin = cend ∧ x.indent = e.indent) := by
  obtain ⟨q, hwalk, hrtg, hnone⟩ := listWalk_spec S e.indent hlt (S.length + 1) e.end_
    (by have := List.countP_le_length (l := S)
          (p := fun x => decide (e.end_ ≤ x.begin))
        omega)
  refine ⟨q, r.resetOffset q, ?_, rfl, rfl, hrtg, hnone⟩
  have hfind : S.find? (fun x => x.begin == r.pos) = some e := by
    have := find?_begin_unique S e hU hmem
    rwa [hbeg] at this
  simp [parseList, Reader.offset, hfind, hwalk]

/-- Witness for `C5_parseList_walk` on the structure scanned from
`"- a\n- b\n"`. -/
theorem C5_parseList_walk_witness :
    ∃ cend r', parseList
        [⟨0, 0, "- ".toList, none, none, none, 4⟩,
         ⟨4, 0, "- ".toList, none, none, none, 8⟩]
        (Reader.mk' ("- a\n- b\n".toList)) =
        .ok (.plainList 0 (Reader.mk' ("- a\n- b\n".toList)).pos cend
          [⟨0, 0, "- ".toList, none, none, none, 4⟩,
           ⟨4, 0, "- ".toList, none, none, none, 8⟩] []) r' ∧
      r'.pos = cend ∧ r' = (Reader.mk' ("- a\n- b\n".toList)).resetOffset cend ∧
      Relation.ReflTransGen (HopStep
        [⟨0, 0, "- ".toList, none, none, none, 4⟩,
         ⟨4, 0, "- ".toList, none, none, none, 8⟩] 0) 4 cend ∧
      ∀ x ∈ [(⟨0, 0, "- ".toList, none, none, none, 4⟩ : LSItem),
             ⟨4, 0, "- ".toList, none, none, none, 8⟩],
        ¬ (x.begin = cend ∧ x.indent = 0) :=
  C5_parseList_walk
    [⟨0, 0, "- ".toList, none, none, none, 4⟩,
     ⟨4, 0, "- ".toList, none, none, none, 8⟩]
    (Reader.mk' ("- a\n- b\n".toList))
    ⟨0, 0, "- ".toList, none, none, none, 4⟩
    (by simp) (by rfl)
    (by simp [List.pairwise_cons])
    (by decide)

/-- When `parseLink` declines (returns `null`), the reader is unchanged and
the outcome does not depend on the recursive-call argument: the `null`
returns of `parser.ts` lines 294-339 happen before any recursion. -/
theorem parseLink_none_indep (rc : RArg → Reader → PRes (List ONode)) (r r2 : Reader)
    (h : parseLink rc r = .ok none r2) :
    r2 = r ∧ ∀ rc' : RArg → Reader → PRes (List ONode), parseLink rc' r = .ok none r := by
  unfold parseLink at h
  split at h
  · rename_i heq
    split at h
    · rename_i hs
      injection h with h1 h2
      subst h2
      exact ⟨rfl, fun rc' => by simp [parseLink, heq, hs]⟩
    · rename_i m hs
      simp only [] at h
      split at h
      · split at h
        · exact PRes.noConfusion h
        · simp at h
      · simp at h
  · rename_i hne
    split at h
    · rename_i hs
      injection h with h1 h2
      subst h2
      refine ⟨rfl, fun rc' => ?_⟩
      unfold parseLink
      split
      · rename_i heq; exact absurd heq hne
      · simp [hs]
    · simp at h

/-- Every object produced by `parseLink` is a link node. -/
theorem parseLink_some_link (rc : RArg → Reader → PRes (List ONode)) (r r2 : Reader)
    (o : ONode) (h : parseLink rc r = .ok (some o) r2) :
    ∃ lt rl cs, o = ONode.link lt rl cs := by
  unfold parseLink at h
  split at h
  · split at h
    · exact absurd h (by simp)
    · simp only [] at h
      split at h
      · split at h
        · exact PRes.noConfusion h
        · injection h with h1 h2
          injection h1 with h1
          exact ⟨_, _, _, h1.symm⟩
      · injection h with h1 h2
        injection h1 with h1
        exact ⟨_, _, _, h1.symm⟩
  · split at h
    · exact absurd h (by simp)
    · injection h with h1 h2
      injection h1 with h1
      exact ⟨_, _, _, h1.symm⟩

/-- When `parseObject` declines, the reader is unchanged and the outcome
does not depend on the recursive-call argument. -/
theorem parseObject_none_indep (rc : RArg → Reader → PRes (List ONode)) (restr : RArg)
    (r r2 : Reader) (h : parseObject rc restr r = .ok none r2) :
    r2 = r ∧ ∀ rc' : RArg → Reader → PRes (List ONode),
      parseObject rc' restr r = .ok none r := by
  unfold parseObject at h
  split at h
  · rename_i heq
    split at h
    · exact PRes.noConfusion h
    · rename_i b hs
      split at h
      · rename_i hb
        obtain ⟨rfl, hall⟩ := parseLink_none_indep rc r r2 h
        exact ⟨rfl, fun rc' => by simp [parseObject, heq, hs, hb, hall rc']⟩
      · rename_i hb
        injection h with h1 h2
        subst h2
        exact ⟨rfl, fun rc' => by simp [parseObject, heq, hs, hb]⟩
  · rename_i heq
    injection h with h1 h2
    subst h2
    exact ⟨rfl, fun rc' => by simp [parseObject, heq]⟩
  · rename_i heq
    split at h
    · exact PRes.noConfusion h
    · rename_i b hs
      split at h
      · rename_i hb
        obtain ⟨rfl, hall⟩ := parseLink_none_indep rc r r2 h
        exact ⟨rfl, fun rc' => by simp [parseObject, heq, hs, hb, hall rc']⟩
      · rename_i hb
        injection h with h1 h2
        subst h2
        exact ⟨rfl, fun rc' => by simp [parseObject, heq, hs, hb]⟩

/-- Every object produced by `parseObject` is a link node (`parser.ts`
lines 221-239 dispatch only to `parseLink`). -/
theorem parseObject_some_link (rc : RArg → Reader → PRes (List ONode)) (restr : RArg)
    (r r2 : Reader) (o : ONode) (h : parseObject rc restr r = .ok (some o) r2) :
    ∃ lt rl cs, o = ONode.link lt rl cs := by
  unfold parseObject at h
  split at h
  · split at h
    · exact PRes.noConfusion h
    · split at h
      · exact parseLink_some_link _ _ _ _ h
      · exact absurd h (by simp)
  · exact absurd h (by simp)
  · split at h
    · exact PRes.noConfusion h
    · split at h
      · exact parseLink_some_link _ _ _ _ h
      · exact absurd h (by simp)

/-- Unfolding equation of `objectMatchIdx`. -/
theorem objectMatchIdx_eq (s : List Char) (i : Nat) :
    objectMatchIdx s i = if objectRegexpAt s then some i
      else match s with | [] => none | _ :: rest => objectMatchIdx rest (i + 1) := by
  rw [objectMatchIdx.eq_def]

/-- A search hit of the object regex at reported index `i` (search started
at index `k`) means the regex matches at the corresponding drop of the
haystack. -/
theorem objectMatchIdx_drop (s : List Char) :
    ∀ (k i : Nat), objectMatchIdx s k = some i →
      k ≤ i ∧ objectRegexpAt (s.drop (i - k)) = true := by
  induction s with
  | nil =>
      intro k i h
      rw [objectMatchIdx_eq] at h
      simp only [show objectRegexpAt [] = false from rfl] at h
      exact absurd h (by simp)
  | cons c rest ih =>
      intro k i h
      rw [objectMatchIdx_eq] at h
      by_cases hat : objectRegexpAt (c :: rest) = true
      · rw [if_pos hat] at h
        injection h with h1
        subst h1
        simpa using hat
      · rw [if_neg hat] at h
        obtain ⟨hk, hd⟩ := ih (k + 1) i h
        refine ⟨by omega, ?_⟩
        have : i - k = (i - (k + 1)) + 1 := by omega
        rw [this, List.drop_succ_cons]
        exact hd

/-- A regex hit at the head of the haystack is reported at index 0. -/
theorem objectMatchIdx_head (s : List Char) (h : objectRegexpAt s = true) :
    objectMatchIdx s 0 = some 0 := by
  rw [objectMatchIdx_eq, if_pos h]

/-- Advancing the reader drops the corresponding prefix of the visible
rest. -/
theorem Reader.rest_advanceN (r : Reader) (n : Nat) :
    (r.advanceN n).rest = r.rest.drop n := by
  simp [Reader.advanceN, Reader.rest, List.drop_drop]

/-- The progress guard of `parseObjects` (`parser.ts` line 156): a loop
entered at the previously seen offset raises. -/
theorem poLoop_progress_err (fuel : Nat) (restr : RArg) (acc : List ONode) (r : Reader) :
    ∃ e, poLoop fuel restr (some r.offset) acc r = .err e := by
  cases fuel with
  | zero => exact ⟨.fuel, rfl⟩
  | succ fuel => exact ⟨.noProgressObjects, by simp [poLoop, poLoopStep]⟩

/-- When the object regex matches at the cursor but `parseObject` declines
there, the `parseObjects` loop can never return normally: it raises the
progress error after at most one further iteration (the situation of the
TODO comment at `parser.ts` line 172). -/
theorem poLoop_stuck (restr : RArg) (r : Reader)
    (hm : objectMatchIdx r.rest 0 = some 0)
    (ho : ∀ rc : RArg → Reader → PRes (List ONode),
      parseObject rc restr r = .ok none r) :
    ∀ (fuel : Nat) (prev : Option Nat) (acc : List ONode),
      ∃ e, poLoop fuel restr prev acc r = .err e := by
  intro fuel
  induction fuel with
  | zero => exact fun prev acc => ⟨.fuel, rfl⟩
  | succ fuel ih =>
      intro prev acc
      by_cases hp : prev = some r.offset
      · exact ⟨.noProgressObjects, by simp [poLoop, poLoopStep, hp]⟩
      · obtain ⟨e, he⟩ := ih (some r.offset) acc
        exact ⟨e, by simp [poLoop, poLoopStep, hp, hm, poAfterObject, ho, he]⟩

/-- Invariant of the `parseObjects` loop: if no already-accumulated object
at the head of the (reversed) accumulator is an all-whitespace text node,
then a normally returned object list never ends with an all-whitespace
text node.  Pre-match text (`parser.ts` line 168) is pushed unconditionally
but is always followed either by a produced object or by the progress
error; only the trailing remainder (`parser.ts` lines 179-185) is tested
with `trim`. -/
theorem poLoop_last_text (fuel : Nat) :
    ∀ (restr : RArg) (prev : Option Nat) (acc : List ONode) (r : Reader)
      (objs : List ONode) (r' : Reader),
      poLoop fuel restr prev acc r = .ok objs r' →
      (∀ v, acc.head? = some (.text v) → trimNonempty v = true) →
      ∀ v, objs.getLast? = some (.text v) → trimNonempty v = true := by
  induction fuel with
  | zero => intro _ _ _ _ _ _ h; exact absurd h (by simp [poLoop])
  | succ fuel ih =>
      intro restr prev acc r objs r' h hacc v hv
      simp only [poLoop, poLoopStep] at h
      by_cases hp : prev = some r.offset
      · rw [if_pos hp] at h; exact PRes.noConfusion h
      · rw [if_neg hp] at h
        split at h
        · by_cases ht : trimNonempty r.rest = true
          · rw [if_pos ht] at h
            injection h with h1 h2
            subst h1
            rw [List.getLast?_reverse] at hv
            simp only [List.head?_cons, Option.some.injEq] at hv
            injection hv with hv
            rw [← hv]
            exact ht
          · rw [if_neg ht] at h
            injection h with h1 h2
            subst h1
            rw [List.getLast?_reverse] at hv
            exact hacc v hv
        · rename_i idx hidx
          by_cases hiz : idx = 0
          · subst hiz
            rw [if_neg (fun hc => hc rfl)] at h
            unfold poAfterObject at h
            rcases hpo : parseObject (fun rg rr => poLoop fuel rg none [] rr) restr r
              with ⟨o, r2⟩ | e
            · rw [hpo] at h
              rcases o with _ | o
              · obtain ⟨heq, hall⟩ := parseObject_none_indep _ _ _ _ hpo
                rw [heq] at h
                obtain ⟨e, he⟩ := poLoop_progress_err fuel restr acc r
                simp only [he] at h
                exact PRes.noConfusion h
              · obtain ⟨lt, rl, cs, rfl⟩ := parseObject_some_link _ _ _ _ _ hpo
                refine ih restr _ _ _ _ _ h ?_ v hv
                intro w hw
                simp at hw
            · rw [hpo] at h
              exact PRes.noConfusion h
          · rw [if_pos hiz] at h
            unfold poAfterObject at h
            rcases hpo : parseObject (fun rg rr => poLoop fuel rg none [] rr) restr
                (r.advanceN idx) with ⟨o, r2⟩ | e
            · rw [hpo] at h
              rcases o with _ | o
              · obtain ⟨heq, hall⟩ := parseObject_none_indep _ _ _ _ hpo
                subst heq
                obtain ⟨hk, hat⟩ := objectMatchIdx_drop r.rest 0 idx hidx
                rw [Nat.sub_zero] at hat
                have hm0 : objectMatchIdx (r.advanceN idx).rest 0 = some 0 := by
                  rw [Reader.rest_advanceN]
                  exact objectMatchIdx_head _ hat
                obtain ⟨e, he⟩ := poLoop_stuck restr (r.advanceN idx) hm0 hall fuel
                  (some r.offset) (ONode.text (r.peek idx) :: acc)
                simp only [he] at h
                exact PRes.noConfusion h
              · obtain ⟨lt, rl, cs, rfl⟩ := parseObject_some_link _ _ _ _ _ hpo
                refine ih restr _ _ _ _ _ h ?_ v hv
                intro w hw
                simp at hw
            · rw [hpo] at h
              exact PRes.noConfusion h

/-- C9 (amended): in `parseObjects`, only the trailing text run after the
last object match is subject to the whitespace test `value.trim().length
> 0`: a whitespace-only trailing remainder is elided, so a normal return
of `parseObjects` never ends with an all-whitespace text node.  (Pre-match
text before an object is emitted unconditionally, even if all-whitespace:
see the counterexample theorem.) -/
theorem C9_trailing_whitespace_elided (fuel : Nat) (restr : RArg) (r : Reader)
    (objs : List ONode) (r' : Reader)
    (h : parseObjects fuel restr r = .ok objs r') :
    ∀ v, objs.getLast? = some (.text v) → trimNonempty v = true :=
  poLoop_last_text fuel restr none [] r objs r' h (fun _ hv => by simp at hv)

theorem C9_trailing_whitespace_elided_witness :
    parseObjects 4 (.set ["link", "text"]) (Reader.mk' ("a ".toList)) =
      .ok [ONode.text "a ".toList] ⟨"a ".toList, 2, 0, 2, []⟩ ∧
    trimNonempty "a ".toList = true :=
  ⟨rfl, C9_trailing_whitespace_elided 4 (.set ["link", "text"]) (Reader.mk' ("a ".toList))
    [ONode.text "a ".toList] ⟨"a ".toList, 2, 0, 2, []⟩ rfl "a ".toList rfl⟩

/-- Soundness of the lazy colon scan: a capture extends the accumulator
with a colon-free, newline-free run ending right before a colon. -/
theorem lazyColonGo_sound : ∀ (s acc g : List Char), lazyColonGo acc s = some g →
    ∃ mid post, g = acc.reverse ++ mid ∧ s = mid ++ ':' :: post ∧
      ∀ c ∈ mid, c ≠ ':' ∧ c ≠ '\n' := by
  intro s
  induction s with
  | nil => intro acc g h; exact absurd h (by simp [lazyColonGo])
  | cons c rest ih =>
      intro acc g h
      rw [lazyColonGo.eq_def] at h
      split at h
      · exact absurd h (by simp)
      · rename_i x heq
        injection heq with heq1 heq2
        subst heq1 heq2
        injection h with h1
        exact ⟨[], rest, by simp [h1.symm], rfl, by simp⟩
      · rename_i c' rest' hne1 heq
        injection heq with heq1 heq2
        subst heq1 heq2
        by_cases hn : c = '\n'
        · subst hn
          rw [if_pos rfl] at h
          exact absurd h (by simp)
        · rw [if_neg hn] at h
          obtain ⟨mid', post, hg, hrest, hclean⟩ := ih (c :: acc) g h
          refine ⟨c :: mid', post, ?_, ?_, ?_⟩
          · simp only [hg, List.reverse_cons, List.append_assoc, List.cons_append,
              List.nil_append]
          · simp [hrest]
          · intro d hd
            rcases List.mem_cons.mp hd with rfl | hd
            · exact ⟨fun h' => hne1 h', hn⟩
            · exact hclean d hd

/-- A missed lazy colon scan means every colon of the remaining input is
preceded by a newline. -/
theorem lazyColonGo_none : ∀ (s acc : List Char), lazyColonGo acc s = none →
    ∀ mid post, s = mid ++ ':' :: post → '\n' ∈ mid := by
  intro s
  induction s with
  | nil => intro acc _ mid post hmp; exact absurd hmp (by simp)
  | cons c rest ih =>
      intro acc h mid post hmp
      rw [lazyColonGo.eq_def] at h
      split at h
      · rename_i heq; exact absurd heq (by simp)
      · rename_i x heq; exact absurd h (by simp)
      · rename_i c' rest' hne1 heq
        injection heq with heq1 heq2
        subst heq1 heq2
        rcases mid with _ | ⟨d, mid'⟩
        · rw [List.nil_append] at hmp
          injection hmp with h1 h2
          exact absurd h1 hne1
        · rw [List.cons_append] at hmp
          injection hmp with h1 h2
          by_cases hn : c = '\n'
          · rw [← h1, hn]; exact List.mem_cons_self _ _
          · rw [if_neg hn] at h
            exact List.mem_cons_of_mem _ (ih (c :: acc) h mid' post h2)

/-- A colon-free prefix before a colon is never longer than any other
prefix before a colon of the same list. -/
theorem colonFree_append_len : ∀ (a b a' b' : List Char),
    a ++ ':' :: b = a' ++ ':' :: b' → (∀ c ∈ a, c ≠ ':') → a.length ≤ a'.length := by
  intro a
  induction a with
  | nil => intro b a' b' h hcf; simp
  | cons c atl ih =>
      intro b a' b' h hcf
      rcases a' with _ | ⟨c', a'tl⟩
      · rw [List.nil_append] at h
        injection h with h1 h2
        exact absurd h1 (hcf c (List.mem_cons_self _ _))
      · rw [List.cons_append, List.cons_append] at h
        injection h with h1 h2
        have hle := ih b a'tl b' h2 (fun d hd => hcf d (List.mem_cons_of_mem _ hd))
        simp only [List.length_cons]
        omega

/-- A capture at a fixed start position is a valid decomposition with empty
prefix, and is shortest among such decompositions. -/
theorem lazyColonStart_sound (c : Char) (rest g : List Char)
    (h : lazyColonStart (c :: rest) = some g) :
    LazyDecomp (c :: rest) [] g ∧
      ∀ g', LazyDecomp (c :: rest) [] g' → g.length ≤ g'.length := by
  rw [lazyColonStart.eq_def] at h
  split at h
  · rename_i heq; exact absurd heq (by simp)
  · rename_i c0 rest0 heq
    injection heq with heq1 heq2
    subst heq1 heq2
    by_cases hn : c = '\n'
    · rw [if_pos hn] at h; exact absurd h (by simp)
    · rw [if_neg hn] at h
      obtain ⟨mid, post, hg, hrest, hclean⟩ := lazyColonGo_sound rest [c] g h
      have hg' : g = c :: mid := by simpa using hg
      constructor
      · refine ⟨by simp [hg'], ?_, post, by simp [hg', hrest]⟩
        rw [hg']
        intro hmem
        rcases List.mem_cons.mp hmem with h1 | h1
        · exact hn h1.symm
        · exact (hclean _ h1).2 rfl
      · intro g' hd'
        obtain ⟨hne', hnl', post', ht'⟩ := hd'
        rw [List.nil_append] at ht'
        obtain ⟨d, gtl, rfl⟩ := List.exists_cons_of_ne_nil hne'
        rw [List.cons_append] at ht'
        injection ht' with h1 h2
        have hmg : mid ++ ':' :: post = gtl ++ ':' :: post' := by rw [← hrest]; exact h2
        have hle := colonFree_append_len mid post gtl post' hmg (fun e he => (hclean e he).1)
        rw [hg']
        simp only [List.length_cons]
        omega

/-- A miss at a fixed start position excludes every decomposition with
empty prefix. -/
theorem lazyColonStart_none (c : Char) (rest : List Char)
    (h : lazyColonStart (c :: rest) = none) :
    ∀ g, ¬ LazyDecomp (c :: rest) [] g := by
  intro g hd
  obtain ⟨hne, hnl, post, ht⟩ := hd
  rw [List.nil_append] at ht
  obtain ⟨d, gtl, rfl⟩ := List.exists_cons_of_ne_nil hne
  rw [List.cons_append] at ht
  injection ht with h1 h2
  subst h1
  rw [lazyColonStart.eq_def] at h
  split at h
  · rename_i heq; exact absurd heq (by simp)
  · rename_i c0 rest0 heq
    injection heq with heq1 heq2
    subst heq1 heq2
    by_cases hn : c = '\n'
    · exact hnl (by rw [← hn]; exact List.mem_cons_self _ _)
    · rw [if_neg hn] at h
      exact hnl (List.mem_cons_of_mem _ (lazyColonGo_none rest [c] h gtl post h2))

/-- Soundness of the `TARGET.match(/(.+?):/)` search: a capture is the
leftmost-start, then shortest, valid decomposition. -/
theorem jsLazyColon_sound : ∀ (t g : List Char), jsLazyColon t = some g →
    IsLazyColonCapture t g := by
  intro t
  induction t with
  | nil => intro g h; exact absurd h (by simp [jsLazyColon])
  | cons c rest ih =>
      intro g h
      rw [jsLazyColon.eq_def] at h
      split at h
      · rename_i heq; exact absurd heq (by simp)
      · rename_i c0 rest0 heq
        injection heq with heq1 heq2
        subst heq1 heq2
        split at h
        · rename_i g0 hs
          injection h with h1
          subst h1
          obtain ⟨hd, hmin⟩ := lazyColonStart_sound c rest g0 hs
          refine ⟨[], hd, ?_⟩
          intro pre' g' hd'
          rcases pre' with _ | ⟨d, pretl⟩
          · exact Or.inr ⟨rfl, hmin g' hd'⟩
          · exact Or.inl (by simp)
        · rename_i hs
          obtain ⟨pre, hd, hmin⟩ := ih g h
          refine ⟨c :: pre, ?_, ?_⟩
          · obtain ⟨hne, hnl, post, ht⟩ := hd
            exact ⟨hne, hnl, post, by rw [List.cons_append, List.cons_append, ← ht]⟩
          · intro pre' g' hd'
            rcases pre' with _ | ⟨d, pretl⟩
            · exact absurd hd' (lazyColonStart_none c rest hs g')
            · obtain ⟨hne, hnl, post, ht⟩ := hd'
              rw [List.cons_append, List.cons_append] at ht
              injection ht with h1 h2
              subst h1
              rcases hmin pretl g' ⟨hne, hnl, post, h2⟩ with hlt | ⟨heq', hle⟩
              · exact Or.inl (by simpa using Nat.succ_lt_succ hlt)
              · exact Or.inr ⟨by simp [heq'], hle⟩

/-- A missed `(.+?):` search excludes every valid decomposition. -/
theorem jsLazyColon_none : ∀ (t : List Char), jsLazyColon t = none →
    ∀ pre g, ¬ LazyDecomp t pre g := by
  intro t
  induction t with
  | nil =>
      intro _ pre g hd
      obtain ⟨hne, hnl, post, ht⟩ := hd
      simp at ht
  | cons c rest ih =>
      intro h pre g hd
      rw [jsLazyColon.eq_def] at h
      split at h
      · rename_i heq; exact absurd heq (by simp)
      · rename_i c0 rest0 heq
        injection heq with heq1 heq2
        subst heq1 heq2
        split at h
        · exact absurd h (by simp)
        · rename_i hs
          rcases pre with _ | ⟨d, pretl⟩
          · exact lazyColonStart_none c rest hs g hd
          · obtain ⟨hne, hnl, post, ht⟩ := hd
            rw [List.cons_append, List.cons_append] at ht
            injection ht with h1 h2
            exact ih h pretl g ⟨hne, hnl, post, h2⟩

/-- The `linkType` computation (`parser.ts` lines 315-320) in terms of the
backtracking-regex specification: the lazy capture when one exists,
`fuzzy` otherwise. -/
theorem linkTypeOf_spec (t : List Char) :
    (∃ g, IsLazyColonCapture t g ∧ linkTypeOf t = g) ∨
      ((∀ pre g, ¬ LazyDecomp t pre g) ∧ linkTypeOf t = "fuzzy".toList) := by
  rcases hj : jsLazyColon t with _ | g
  · exact Or.inr ⟨jsLazyColon_none t hj, by simp [linkTypeOf, hj]⟩
  · exact Or.inl ⟨g, jsLazyColon_sound t g hj, by simp [linkTypeOf, hj]⟩

/-- C7 (amended): for a bracket link without description, `parseLink`
returns a link node whose `linkType` is the capture of the lazy regex
`(.+?):` on the raw target — the leftmost-start, then shortest, nonempty
newline-free run immediately followed by a colon — or the literal `fuzzy`
when no such decomposition exists; and the claim's end-to-end example
`[[link][text]]` parses to the claimed tree.  (The claim's original words,
"the part before the first colon", fail when the target starts with a
colon: see the counterexample theorem.) -/
theorem C7_linkType_lazy_match (recur : RArg → Reader → PRes (List ONode))
    (r : Reader) (m : LBMatch) (hpk : r.peek 1 = ['['])
    (hs : linkBracketSearch r.rest = some m) (hd : m.descr = none) :
    parseLink recur r =
      .ok (some (.link (linkTypeOf m.link) m.link [])) (r.advanceN (m.index + m.len)) ∧
    ((∃ g, IsLazyColonCapture m.link g ∧ linkTypeOf m.link = g) ∨
      ((∀ pre g, ¬ LazyDecomp m.link pre g) ∧ linkTypeOf m.link = "fuzzy".toList)) ∧
    parse 16 "[[link][text]]".toList =
      .ok (.orgData 0 14 [.sectionN 0 14 [.paragraph 0 14
        [.link "fuzzy".toList "link".toList [.text "text".toList]]]]) :=
  ⟨by simp [parseLink, hpk, hs, hd], linkTypeOf_spec m.link, rfl⟩

theorem C7_linkType_lazy_match_witness :
    parseLink (fun _ rr => PRes.ok [] rr) (Reader.mk' ("[[a]]".toList)) =
      .ok (some (.link (linkTypeOf "a".toList) "a".toList []))
        ((Reader.mk' ("[[a]]".toList)).advanceN (0 + 5)) ∧
    ((∃ g, IsLazyColonCapture "a".toList g ∧ linkTypeOf "a".toList = g) ∨
      ((∀ pre g, ¬ LazyDecomp "a".toList pre g) ∧
        linkTypeOf "a".toList = "fuzzy".toList)) ∧
    parse 16 "[[link][text]]".toList =
      .ok (.orgData 0 14 [.sectionN 0 14 [.paragraph 0 14
        [.link "fuzzy".toList "link".toList [.text "text".toList]]]]) :=
  C7_linkType_lazy_match (fun _ rr => PRes.ok [] rr) (Reader.mk' ("[[a]]".toList))
    ⟨0, "a".toList, none, 5⟩ rfl rfl rfl
